import Mathlib

/-!
Verification development for the assignment FAQ generator
(`FaqGenerator_v2.py` plus its thin Streamlit front end).

Strings are modelled as `List Char` with ASCII semantics: `\s` of Python's
`re` module is modelled by `isPySpace`, `\w` by ASCII alphanumerics plus
underscore, `str.lower` by `Char.toLower`.  The external NLP collaborators
(NLTK tokenizers, the part-of-speech tagger, the stop-word set, the file
readers and the readability scorer) are modelled as an explicit environment
`NlpEnv` of pure functions, as the spec treats them as pluggable
capabilities.
-/

/-- ASCII model of the whitespace class `\s` used by Python's `re` module
and by `str.strip` / `str.split`. -/
def isPySpace (c : Char) : Bool :=
  c = ' ' || c = '\t' || c = '\n' || c = '\r' || c = '\x0b' || c = '\x0c'

/-- ASCII model of the word-character class `\w` (alphanumeric or underscore). -/
def isWordChar (c : Char) : Bool :=
  c.isAlphanum || c = '_'

/-- The punctuation the normalizer keeps: `. , ! ? ; : ( ) - ' "`. -/
def keptPunct : List Char :=
  ['.', ',', '!', '?', ';', ':', '(', ')', '-', Char.ofNat 39, '"']

/-- Characters surviving step 4 of `preprocess_text`
(`re.sub(r'[^\w\s.,!?;:()\-\x27"]+', '', text)`). -/
def isAllowed (c : Char) : Bool :=
  isWordChar c || isPySpace c || keptPunct.contains c

/-- `str.lower` on one character (ASCII model). -/
def pyLowerC (c : Char) : Char := c.toLower

/-- `str.lower` (ASCII model). -/
def pyLowerL (s : List Char) : List Char := s.map pyLowerC

/-- Drop trailing Python whitespace (the right half of `str.strip`). -/
def dropTrailWs (s : List Char) : List Char :=
  (s.reverse.dropWhile isPySpace).reverse

/-- `str.strip()` with no arguments: drop Python whitespace at both ends. -/
def pyStrip (s : List Char) : List Char :=
  dropTrailWs (s.dropWhile isPySpace)

/-- Step 1 of `preprocess_text`: `re.sub(r'\r\n', '\n', text)`,
replacing non-overlapping CRLF pairs left to right. -/
def crlfToLf : List Char → List Char
  | [] => []
  | [c] => [c]
  | c1 :: c2 :: rest =>
    if c1 = '\r' ∧ c2 = '\n' then '\n' :: crlfToLf rest
    else c1 :: crlfToLf (c2 :: rest)

/-- Scanner for step 2, `re.sub(r'\s+', ' ', text)`: the flag records
whether the scanner is inside a whitespace run that already emitted `' '`. -/
def collapseWsAux : List Char → Bool → List Char
  | [], _ => []
  | c :: rest, inRun =>
    if isPySpace c then
      if inRun then collapseWsAux rest true
      else ' ' :: collapseWsAux rest true
    else c :: collapseWsAux rest false

/-- Step 2 of `preprocess_text`: collapse every whitespace run to one space. -/
def collapseWs (s : List Char) : List Char := collapseWsAux s false

/-- Scanner for step 3, `re.sub(r'\n+', '\n', text)`. -/
def collapseNlAux : List Char → Bool → List Char
  | [], _ => []
  | c :: rest, inRun =>
    if c = '\n' then
      if inRun then collapseNlAux rest true
      else '\n' :: collapseNlAux rest true
    else c :: collapseNlAux rest false

/-- Step 3 of `preprocess_text`: collapse every newline run to one newline. -/
def collapseNl (s : List Char) : List Char := collapseNlAux s false

/-- Step 4 of `preprocess_text`: removing every run of disallowed characters
is the same as filtering them out. -/
def removeDisallowed (s : List Char) : List Char := s.filter isAllowed

/-- Does `Page \d+` (case-insensitive, one literal space, greedy digits)
match at the head of the list? -/
def isPageAt (s : List Char) : Bool :=
  match s with
  | c1 :: c2 :: c3 :: c4 :: c5 :: c6 :: _ =>
    pyLowerC c1 = 'p' && pyLowerC c2 = 'a' && pyLowerC c3 = 'g' &&
    pyLowerC c4 = 'e' && c5 = ' ' && c6.isDigit
  | _ => false

/-- The remainder of the list after the `Page \d+` match at its head
(the greedy `\d+` eats the maximal digit run). -/
def pageRest (s : List Char) : List Char :=
  match s with
  | _ :: _ :: _ :: _ :: _ :: _ :: rest => rest.dropWhile Char.isDigit
  | _ => s

/-- Fuelled scanner for step 5, `re.sub(r'Page \d+', '', text, flags=re.IGNORECASE)`:
at each position remove a match and continue after it, otherwise keep one
character.  Every step consumes at least one character, so fuel equal to the
length of the list makes the fuel bound unreachable. -/
def rpmFuel : Nat → List Char → List Char
  | 0, s => s
  | _ + 1, [] => []
  | n + 1, c :: rest =>
    if isPageAt (c :: rest) then rpmFuel n (pageRest (c :: rest))
    else c :: rpmFuel n rest

/-- Step 5 of `preprocess_text`: remove `Page <digits>` markers. -/
def removePageMarkers (s : List Char) : List Char := rpmFuel s.length s

/-- Does `\d+/\d+` match at the head of the list?  The leading `\d+` must be
the maximal digit run (a shorter run leaves a digit, not `/`, next), then a
slash, then at least one digit. -/
def isFracAt (s : List Char) : Bool :=
  match s with
  | [] => false
  | c :: rest =>
    c.isDigit &&
    (match rest.dropWhile Char.isDigit with
     | '/' :: d2 :: _ => d2.isDigit
     | _ => false)

/-- The remainder after the `\d+/\d+` match at the head of the list. -/
def fracRest (s : List Char) : List Char :=
  match s with
  | [] => []
  | _ :: rest =>
    match rest.dropWhile Char.isDigit with
    | '/' :: _ :: rest2 => rest2.dropWhile Char.isDigit
    | _ => rest

/-- Fuelled scanner for step 6, `re.sub(r'\d+/\d+', '', text)`. -/
def rfrFuel : Nat → List Char → List Char
  | 0, s => s
  | _ + 1, [] => []
  | n + 1, c :: rest =>
    if isFracAt (c :: rest) then rfrFuel n (fracRest (c :: rest))
    else c :: rfrFuel n rest

/-- Step 6 of `preprocess_text`: remove `<digits>/<digits>` markers. -/
def removeFractions (s : List Char) : List Char := rfrFuel s.length s

/-- `preprocess_text` from `FaqGenerator_v2.py`: CRLF to LF, collapse
whitespace runs, collapse newline runs, drop unusual characters, drop
`Page <digits>` and `<digits>/<digits>` page markers, strip the ends. -/
def preprocess_text (s : List Char) : List Char :=
  pyStrip (removeFractions (removePageMarkers (removeDisallowed
    (collapseNl (collapseWs (crlfToLf s))))))

/-- Two consecutive spaces occur somewhere in the list. -/
def hasDoubleSpace : List Char → Bool
  | [] => false
  | [_] => false
  | c1 :: c2 :: rest => (c1 = ' ' && c2 = ' ') || hasDoubleSpace (c2 :: rest)

/-- A `Page \d+` marker matches at some position of the list. -/
def hasPageMarker : List Char → Bool
  | [] => false
  | c :: rest => isPageAt (c :: rest) || hasPageMarker rest

/-- Every whitespace character of the list is a plain space. -/
def wsOnlySpace (s : List Char) : Bool :=
  s.all (fun c => !isPySpace c || c = ' ')

/-- Neither end of the list carries whitespace. -/
def noEdgeWs (s : List Char) : Bool :=
  (match s.head? with | none => true | some c => !isPySpace c) &&
  (match s.getLast? with | none => true | some c => !isPySpace c)

/-- `str.split()` scanner: split on whitespace runs, dropping empty pieces;
`cur` holds the current word reversed. -/
def pySplitAux : List Char → List Char → List (List Char)
  | [], cur => if cur.isEmpty then [] else [cur.reverse]
  | c :: rest, cur =>
    if isPySpace c then
      if cur.isEmpty then pySplitAux rest []
      else cur.reverse :: pySplitAux rest []
    else pySplitAux rest (c :: cur)

/-- `str.split()` with no arguments. -/
def pySplit (s : List Char) : List (List Char) := pySplitAux s []

/-- Python's substring operator `needle in hay`. -/
def isSubstrB (needle : List Char) : List Char → Bool
  | [] => needle.isEmpty
  | c :: rest => needle.isPrefixOf (c :: rest) || isSubstrB needle rest

/-- One generated FAQ entry: `{"question": ..., "answer": ...}`. -/
structure FaqPair where
  question : List Char
  answer : List Char
deriving DecidableEq

/-- The external collaborators of the generator, modelled as pure functions:
NLTK's sentence and word tokenizers, the part-of-speech tagger, the English
stop-word set, the two file readers and the `textstat` readability scorer
(`none` models the scorer raising an exception). -/
structure NlpEnv where
  sentTokenize : List Char → List (List Char)
  wordTokenize : List Char → List (List Char)
  posTag : List (List Char) → List (List Char × List Char)
  stopWords : List (List Char)
  readPdf : List Char → List Char
  readTxt : List Char → List Char
  flesch : List Char → Option Int

/-- `pos.startswith(('NN', 'JJ', 'VB'))`. -/
def nnjjvb (pos : List Char) : Bool :=
  ("NN").toList.isPrefixOf pos || ("JJ").toList.isPrefixOf pos ||
    ("VB").toList.isPrefixOf pos

/-- Python `str.isalpha`: nonempty and all alphabetic (ASCII model). -/
def pyIsAlpha (w : List Char) : Bool := !w.isEmpty && w.all Char.isAlpha

/-- The token filter of `extract_key_concepts`: tag prefix NN/JJ/VB, not a
stop word, length above 2, purely alphabetic. -/
def conceptKeep (env : NlpEnv) (wp : List Char × List Char) : Bool :=
  nnjjvb wp.2 && !(env.stopWords.contains wp.1) && decide (2 < wp.1.length) &&
    pyIsAlpha wp.1

/-- The `important` list of `extract_key_concepts`: tagged tokens of the
lowercased text that pass the filter, in order. -/
def importantWords (env : NlpEnv) (text : List Char) : List (List Char) :=
  ((env.posTag (env.wordTokenize (pyLowerL text))).filter (conceptKeep env)).map
    Prod.fst

/-- Add one occurrence of `w` to an association list of counts, keeping the
existing key order and appending a new key at the end. -/
def bump (w : List Char) : List (List Char × Nat) → List (List Char × Nat)
  | [] => [(w, 1)]
  | (k, n) :: rest => if k = w then (k, n + 1) :: rest else (k, n) :: bump w rest

/-- `collections.Counter` over a list: counts keyed in first-occurrence
(insertion) order, as Python dicts preserve insertion order. -/
def countOcc (ws : List (List Char)) : List (List Char × Nat) :=
  ws.foldl (fun acc w => bump w acc) []

/-- The order used by `Counter.most_common`: count descending.  Insertion
sort with this relation is stable, matching Python's stable sort. -/
def countGE (a b : List Char × Nat) : Prop := b.2 ≤ a.2

instance : DecidableRel countGE := fun a b => Nat.decLe b.2 a.2

instance : IsTotal (List Char × Nat) countGE := ⟨fun a b => Nat.le_total b.2 a.2⟩

instance : IsTrans (List Char × Nat) countGE :=
  ⟨fun _ _ _ h1 h2 => Nat.le_trans h2 h1⟩

/-- `Counter.most_common(n)`: stable sort by count descending, first `n`. -/
def most_common (l : List (List Char × Nat)) (n : Nat) : List (List Char × Nat) :=
  (List.insertionSort countGE l).take n

/-- `extract_key_concepts` from `FaqGenerator_v2.py`. -/
def extract_key_concepts (env : NlpEnv) (text : List Char) (top_n : Nat) :
    List (List Char) :=
  (most_common (countOcc (importantWords env text)) top_n).map Prod.fst

/-- Indicator phrases of the definition generator. -/
def defIndicators : List (List Char) :=
  [("is").toList, ("are").toList, ("defined as").toList, ("refers to").toList,
   ("means").toList, ("definition").toList, ("is called").toList,
   ("is known as").toList]

/-- The question text `"What is {concept}?"`. -/
def whatIsQ (concept : List Char) : List Char :=
  ("What is ").toList ++ concept ++ ['?']

/-- A sentence qualifies as a candidate definition answer for a concept. -/
def qualifiesDef (concept sent : List Char) : Bool :=
  isSubstrB (pyLowerL concept) (pyLowerL sent) &&
    defIndicators.any (fun ind => isSubstrB ind (pyLowerL sent))

/-- Python's `max(..., key=len)`: keeps the first element of maximal length. -/
def maxByLenAux (best : List Char) : List (List Char) → List Char
  | [] => best
  | s :: rest => maxByLenAux (if best.length < s.length then s else best) rest

/-- `generate_definition_questions` from `FaqGenerator_v2.py`. -/
def generate_definition_questions (env : NlpEnv) (concepts : List (List Char))
    (text : List Char) : List FaqPair :=
  let sentences := env.sentTokenize text
  concepts.foldl (fun acc concept =>
    match (sentences.filter (qualifiesDef concept)).map pyStrip with
    | [] => acc
    | d :: ds => acc ++ [⟨whatIsQ concept, maxByLenAux d ds⟩]) []

/-- Indicator phrases of the how/process generator. -/
def howIndicators : List (List Char) :=
  [("first").toList, ("then").toList, ("next").toList, ("finally").toList,
   ("step").toList, ("process").toList, ("method").toList,
   ("procedure").toList, ("how to").toList, ("in order to").toList,
   ("steps").toList]

/-- The question text `"How do you {verb} in this context?"`. -/
def howQ (verb : List Char) : List Char :=
  ("How do you ").toList ++ verb ++ (" in this context").toList ++ ['?']

/-- `pos.startswith('VB')`. -/
def startsVB (pos : List Char) : Bool := ("VB").toList.isPrefixOf pos

/-- `generate_how_questions` from `FaqGenerator_v2.py`. -/
def generate_how_questions (env : NlpEnv) (text : List Char) : List FaqPair :=
  let sentences := env.sentTokenize text
  let processSentences := sentences.filter
    (fun s => howIndicators.any (fun ind => isSubstrB ind (pyLowerL s)))
  (processSentences.take 5).foldl (fun acc sentence =>
    let tags := env.posTag (env.wordTokenize (pyLowerL sentence))
    match (tags.filter (fun wp => startsVB wp.2)).map Prod.fst with
    | [] => acc
    | v :: _ => acc ++ [⟨howQ v, pyStrip sentence⟩]) []

/-- Indicator phrases of the why/reason generator. -/
def whyIndicators : List (List Char) :=
  [("because").toList, ("due to").toList, ("since").toList,
   ("as a result").toList, ("therefore").toList, ("consequently").toList,
   ("reason").toList, ("cause").toList, ("leads to").toList,
   ("results in").toList]

/-- The fixed question of the why/reason generator. -/
def whyQuestion : List Char :=
  ("Why is this concept important in the assignment?").toList

/-- A sentence contains some reason indicator. -/
def qualifiesWhy (sent : List Char) : Bool :=
  whyIndicators.any (fun ind => isSubstrB ind (pyLowerL sent))

/-- `generate_why_questions` from `FaqGenerator_v2.py`. -/
def generate_why_questions (env : NlpEnv) (text : List Char) : List FaqPair :=
  ((env.sentTokenize text).foldl (fun acc sent =>
    if qualifiesWhy sent then acc ++ [⟨whyQuestion, pyStrip sent⟩] else acc)
    []).take 3

/-- Comparison trigger words. -/
def cmpWords : List (List Char) :=
  [("versus").toList, ("vs").toList, ("compared to").toList,
   ("difference between").toList, ("similar to").toList, ("unlike").toList,
   ("whereas").toList, ("however").toList, ("but").toList]

/-- The comparison-sentence pool: sentences holding a comparison word. -/
def comparisonPool (env : NlpEnv) (text : List Char) : List (List Char) :=
  (env.sentTokenize text).filter
    (fun s => cmpWords.any (fun w => isSubstrB w (pyLowerL s)))

/-- The question text `"What is the difference between {c1} and {c2}?"`. -/
def diffQ (c1 c2 : List Char) : List Char :=
  ("What is the difference between ").toList ++ c1 ++ (" and ").toList ++
    c2 ++ ['?']

/-- The synthesized fallback answer of the comparison generator. -/
def cmpFallback (c1 c2 : List Char) : List Char :=
  ("Both ").toList ++ c1 ++ (" and ").toList ++ c2 ++
    (" are important concepts in this assignment that serve different roles in the overall context.").toList

/-- Both concepts occur (case-insensitively) in a sentence. -/
def bothIn (c1 c2 sent : List Char) : Bool :=
  isSubstrB (pyLowerL c1) (pyLowerL sent) &&
    isSubstrB (pyLowerL c2) (pyLowerL sent)

/-- The comparison answer: first pool sentence holding both concepts,
stripped, else the synthesized fallback. -/
def cmpAnswer (pool : List (List Char)) (c1 c2 : List Char) : List Char :=
  match pool.filter (bothIn c1 c2) with
  | [] => cmpFallback c1 c2
  | s :: _ => pyStrip s

/-- `generate_comparison_questions` from `FaqGenerator_v2.py`. -/
def generate_comparison_questions (env : NlpEnv) (text : List Char)
    (concepts : List (List Char)) : List FaqPair :=
  let pool := comparisonPool env text
  (List.range (min (concepts.length - 1) 3)).foldl (fun acc i =>
    let c1 := concepts.getD i []
    let c2 := concepts.getD (i + 1) []
    acc ++ [⟨diffQ c1 c2, cmpAnswer pool c1 c2⟩]) []

/-- The deduplication key: `p['question'].lower().strip()`. -/
def dedupKey (p : FaqPair) : List Char := pyStrip (pyLowerL p.question)

/-- The loop of `remove_duplicate_questions`, carrying the `seen` key set. -/
def rdqAux : List FaqPair → List (List Char) → List FaqPair
  | [], _ => []
  | p :: rest, seen =>
    if dedupKey p ∈ seen then rdqAux rest seen
    else p :: rdqAux rest (dedupKey p :: seen)

/-- `remove_duplicate_questions` from `FaqGenerator_v2.py`. -/
def remove_duplicate_questions (l : List FaqPair) : List FaqPair := rdqAux l []

/-- Specification-side deduplicator, from the spec's words: keep each pair,
dropping every later pair whose lowercased-trimmed question duplicates it. -/
def dedupByFirst : List FaqPair → List FaqPair
  | [] => []
  | p :: rest =>
    p :: dedupByFirst (rest.filter (fun q => decide (dedupKey q ≠ dedupKey p)))
termination_by l => l.length
decreasing_by
  simp only [List.length_cons]
  exact Nat.lt_succ_of_le (List.length_filter_le _ _)

/-- The per-call session state of `AssignmentFAQGenerator`. -/
structure GenState where
  raw_text : List Char
  sentences : List (List Char)
  key_concepts : List (List Char)
  faq_pairs : List FaqPair
deriving DecidableEq

/-- The freshly reset state. -/
def initState : GenState := ⟨[], [], [], []⟩

/-- `process_document` from `FaqGenerator_v2.py`: the incoming state is
reset and never read, mirroring the Python reset of all four fields at the
start of every call; the returned pair is the success flag and the new
session state. -/
def process_document (env : NlpEnv) (input_str : List Char) (_st : GenState) :
    Bool × GenState :=
  let input_lower := pyStrip (pyLowerL input_str)
  let raw_text :=
    if (".pdf").toList.isSuffixOf input_lower then env.readPdf input_str
    else if (".txt").toList.isSuffixOf input_lower then env.readTxt input_str
    else input_str
  if raw_text.isEmpty then
    (false, { raw_text := raw_text, sentences := [], key_concepts := [],
              faq_pairs := [] })
  else
    let processed := preprocess_text raw_text
    let sentences := env.sentTokenize processed
    let key_concepts := extract_key_concepts env processed 15
    let definition_qs := generate_definition_questions env key_concepts processed
    let how_qs := generate_how_questions env processed
    let why_qs := generate_why_questions env processed
    let comparison_qs := generate_comparison_questions env processed key_concepts
    (true, { raw_text := raw_text, sentences := sentences,
             key_concepts := key_concepts,
             faq_pairs := remove_duplicate_questions
               (definition_qs ++ how_qs ++ why_qs ++ comparison_qs) })

/-- The `reading_level` field: a numeric score, or the `"N/A"` sentinel when
the scorer fails. -/
inductive ReadingLevel where
  | score : Int → ReadingLevel
  | na : ReadingLevel
deriving DecidableEq

/-- The statistics record of a processed document. -/
structure DocStats where
  total_characters : Nat
  total_sentences : Nat
  total_faqs : Nat
  key_concepts_found : Nat
  key_concepts : List (List Char)
  reading_level : ReadingLevel
  avg_sentence_length : ℚ
deriving DecidableEq

/-- The result of `get_statistics`: the single-key error record
`{"error": "No document processed yet."}` or the full record. -/
inductive StatsResult where
  | error : StatsResult
  | ok : DocStats → StatsResult
deriving DecidableEq

/-- `get_statistics` from `FaqGenerator_v2.py`. -/
def get_statistics (env : NlpEnv) (st : GenState) : StatsResult :=
  if st.raw_text.isEmpty then StatsResult.error
  else
    StatsResult.ok
      { total_characters := st.raw_text.length
        total_sentences := st.sentences.length
        total_faqs := st.faq_pairs.length
        key_concepts_found := st.key_concepts.length
        key_concepts := st.key_concepts.take 10
        reading_level :=
          match env.flesch st.raw_text with
          | some q => ReadingLevel.score q
          | none => ReadingLevel.na
        avg_sentence_length :=
          if st.sentences.length = 0 then 0
          else ((pySplit st.raw_text).length : ℚ) / (st.sentences.length : ℚ) }

/-- A small concrete environment used to instantiate universally quantified
theorems at executable inputs: one sentence per text, words split on
whitespace, every token tagged `NN`, no stop words, empty file readers,
failing readability scorer. -/
def testEnv : NlpEnv where
  sentTokenize := fun s => if s.isEmpty then [] else [s]
  wordTokenize := fun s => pySplit s
  posTag := fun ws => ws.map (fun w => (w, ("NN").toList))
  stopWords := []
  readPdf := fun _ => []
  readTxt := fun _ => []
  flesch := fun _ => none

/-- The distinct elements of a list in order of first occurrence. -/
def firstOccList (ws : List (List Char)) : List (List Char) :=
  ws.foldl (fun acc w => if w ∈ acc then acc else acc ++ [w]) []

/-- Lookup of a key's count in a counter association list (0 when absent). -/
def cntLookup (acc : List (List Char × Nat)) (w : List Char) : Nat :=
  match acc.find? (fun kv => decide (kv.1 = w)) with
  | some kv => kv.2
  | none => 0

theorem mem_collapseWsAux {s : List Char} {b : Bool} {c : Char}
    (hc : c ∈ collapseWsAux s b) (hws : isPySpace c = true) : c = ' ' := by
  induction s generalizing b with
  | nil => simp [collapseWsAux] at hc
  | cons d rest ih =>
    rw [collapseWsAux] at hc
    by_cases hd : isPySpace d = true
    · rw [if_pos hd] at hc
      by_cases hb : b = true
      · rw [if_pos hb] at hc
        exact ih hc
      · rw [if_neg hb] at hc
        rcases List.mem_cons.mp hc with hc | hc
        · exact hc
        · exact ih hc
    · rw [if_neg hd] at hc
      rcases List.mem_cons.mp hc with hc | hc
      · subst hc; exact absurd hws (by simpa using hd)
      · exact ih hc

theorem collapseNlAux_eq_self {s : List Char} {b : Bool} (h : '\n' ∉ s) :
    collapseNlAux s b = s := by
  induction s generalizing b with
  | nil => rfl
  | cons d rest ih =>
    have hd : ¬ d = '\n' := fun hc => h (hc ▸ List.mem_cons_self _ _)
    rw [collapseNlAux, if_neg hd]
    exact congrArg _ (ih (fun hm => h (List.mem_cons_of_mem _ hm)))

theorem pageRest_sublist (s : List Char) : (pageRest s).Sublist s := by
  unfold pageRest
  split
  · exact (((((((List.dropWhile_sublist _).cons _).cons _).cons _).cons _).cons
      _).cons _)
  · exact List.Sublist.refl s

theorem rpmFuel_subset {n : Nat} {s : List Char} {c : Char}
    (hc : c ∈ rpmFuel n s) : c ∈ s := by
  induction n generalizing s with
  | zero => exact hc
  | succ n ih =>
    match s with
    | [] => exact hc
    | d :: rest =>
      rw [rpmFuel] at hc
      by_cases hp : isPageAt (d :: rest) = true
      · rw [if_pos hp] at hc
        exact (pageRest_sublist (d :: rest)).subset (ih hc)
      · rw [if_neg hp] at hc
        rcases List.mem_cons.mp hc with hc | hc
        · exact hc ▸ List.mem_cons_self _ _
        · exact List.mem_cons_of_mem _ (ih hc)

theorem rpmFuel_eq_self {n : Nat} {s : List Char}
    (h : hasPageMarker s = false) : rpmFuel n s = s := by
  induction n generalizing s with
  | zero => rfl
  | succ n ih =>
    match s with
    | [] => rfl
    | d :: rest =>
      rw [hasPageMarker, Bool.or_eq_false_iff] at h
      rw [rpmFuel, if_neg (by simp [h.1]), ih h.2]

theorem fracRest_sublist (s : List Char) : (fracRest s).Sublist s := by
  unfold fracRest
  split
  · exact List.Sublist.refl _
  · rename_i c rest
    split
    · rename_i d rest2 heq
      have h1 : (rest2.dropWhile Char.isDigit).Sublist rest2 := List.dropWhile_sublist _
      have h2 : rest2.Sublist (rest.dropWhile Char.isDigit) := by
        rw [heq]; exact ((List.Sublist.refl rest2).cons _).cons _
      exact ((h1.trans (h2.trans (List.dropWhile_sublist _))).cons _)
    · exact (List.Sublist.refl rest).cons _

theorem isFracAt_eq_false {s : List Char} (h : '/' ∉ s) : isFracAt s = false := by
  match s with
  | [] => rfl
  | c :: rest =>
    rw [isFracAt]
    split
    · rename_i d2 r2 heq
      exfalso
      have hm : '/' ∈ rest.dropWhile Char.isDigit := by
        rw [heq]; exact List.mem_cons_self _ _
      exact h (List.mem_cons_of_mem _ ((List.dropWhile_sublist _).subset hm))
    · simp

theorem rfrFuel_subset {n : Nat} {s : List Char} {c : Char}
    (hc : c ∈ rfrFuel n s) : c ∈ s := by
  induction n generalizing s with
  | zero => exact hc
  | succ n ih =>
    match s with
    | [] => exact hc
    | d :: rest =>
      rw [rfrFuel] at hc
      by_cases hp : isFracAt (d :: rest) = true
      · rw [if_pos hp] at hc
        exact (fracRest_sublist (d :: rest)).subset (ih hc)
      · rw [if_neg hp] at hc
        rcases List.mem_cons.mp hc with hc | hc
        · exact hc ▸ List.mem_cons_self _ _
        · exact List.mem_cons_of_mem _ (ih hc)

theorem rfrFuel_eq_self {n : Nat} {s : List Char}
    (h : '/' ∉ s) : rfrFuel n s = s := by
  induction n generalizing s with
  | zero => rfl
  | succ n ih =>
    match s with
    | [] => rfl
    | d :: rest =>
      rw [rfrFuel, if_neg (by simp [isFracAt_eq_false h]),
        ih (fun hm => h (List.mem_cons_of_mem _ hm))]

theorem head?_dropWhile_not {p : Char → Bool} {l : List Char} {c : Char}
    (h : (l.dropWhile p).head? = some c) : p c = false := by
  induction l with
  | nil => simp at h
  | cons d rest ih =>
    rw [List.dropWhile_cons] at h
    by_cases hd : p d = true
    · rw [if_pos hd] at h; exact ih h
    · rw [if_neg hd] at h
      simp only [List.head?_cons, Option.some.injEq] at h
      exact h ▸ (Bool.not_eq_true _).mp hd

theorem mem_pyStrip {s : List Char} {c : Char} (hc : c ∈ pyStrip s) : c ∈ s := by
  unfold pyStrip dropTrailWs at hc
  rw [List.mem_reverse] at hc
  have h1 : c ∈ (s.dropWhile isPySpace).reverse := (List.dropWhile_sublist _).subset hc
  rw [List.mem_reverse] at h1
  exact (List.dropWhile_sublist _).subset h1

theorem pyStrip_head? {s : List Char} {c : Char}
    (h : (pyStrip s).head? = some c) : isPySpace c = false := by
  unfold pyStrip dropTrailWs at h
  rcases @List.dropWhile_suffix Char ((s.dropWhile isPySpace).reverse) isPySpace
    with ⟨t, ht⟩
  have hx : ((s.dropWhile isPySpace).reverse.dropWhile isPySpace).reverse ++ t.reverse
      = s.dropWhile isPySpace := by
    have h2 := congrArg List.reverse ht
    rw [List.reverse_append, List.reverse_reverse] at h2
    exact h2
  rcases hsp : ((s.dropWhile isPySpace).reverse.dropWhile isPySpace).reverse
    with _ | ⟨a, u⟩
  · rw [hsp] at h; simp at h
  · rw [hsp] at h
    simp only [List.head?_cons, Option.some.injEq] at h
    rw [hsp, h] at hx
    have h3 : (s.dropWhile isPySpace).head? = some c := by
      rw [← hx]; rfl
    exact head?_dropWhile_not h3

theorem pyStrip_getLast? {s : List Char} {c : Char}
    (h : (pyStrip s).getLast? = some c) : isPySpace c = false := by
  unfold pyStrip dropTrailWs at h
  rw [List.getLast?_eq_head?_reverse, List.reverse_reverse] at h
  exact head?_dropWhile_not h

theorem hasDoubleSpace_tail {d : Char} {rest : List Char}
    (h : hasDoubleSpace (d :: rest) = false) : hasDoubleSpace rest = false := by
  match rest with
  | [] => rfl
  | e :: r =>
    rw [hasDoubleSpace, Bool.or_eq_false_iff] at h
    exact h.2

theorem hasDoubleSpace_head {d : Char} {rest : List Char}
    (h : hasDoubleSpace (d :: rest) = false) (hd : d = ' ') :
    rest.head? ≠ some ' ' := by
  match rest with
  | [] => simp
  | e :: r =>
    rw [hasDoubleSpace, Bool.or_eq_false_iff] at h
    intro he
    simp only [List.head?_cons, Option.some.injEq] at he
    rw [hd, he] at h
    simp at h

theorem crlfToLf_eq_self {s : List Char} (h : '\r' ∉ s) : crlfToLf s = s := by
  induction s with
  | nil => rfl
  | cons c rest ih =>
    cases rest with
    | nil => rfl
    | cons c2 rest2 =>
      have hc : ¬ (c = '\r' ∧ c2 = '\n') := fun hp =>
        h (hp.1 ▸ List.mem_cons_self _ _)
      rw [crlfToLf, if_neg hc]
      exact congrArg _ (ih (fun hm => h (List.mem_cons_of_mem _ hm)))

theorem collapseWsAux_eq_self {s : List Char}
    (h1 : ∀ c ∈ s, isPySpace c = true → c = ' ')
    (h2 : hasDoubleSpace s = false) :
    collapseWsAux s false = s ∧
      (s.head? ≠ some ' ' → collapseWsAux s true = s) := by
  induction s with
  | nil => exact ⟨rfl, fun _ => rfl⟩
  | cons d rest ih =>
    have h1t : ∀ c ∈ rest, isPySpace c = true → c = ' ' :=
      fun c hm => h1 c (List.mem_cons_of_mem _ hm)
    have ihr := ih h1t (hasDoubleSpace_tail h2)
    by_cases hd : isPySpace d = true
    · have hdsp : d = ' ' := h1 d (List.mem_cons_self _ _) hd
      have hrest : rest.head? ≠ some ' ' := by
        intro he
        rcases rest with _ | ⟨e, r⟩
        · simp at he
        · exact hasDoubleSpace_head h2 hdsp he
      constructor
      · rw [collapseWsAux, if_pos hd]
        simp only [Bool.false_eq_true, if_false]
        rw [ihr.2 hrest, hdsp]
      · intro hh
        exact absurd (by rw [List.head?_cons, hdsp]) hh
    · have hstep : ∀ b : Bool, collapseWsAux (d :: rest) b = d :: collapseWsAux rest false := by
        intro b
        rw [collapseWsAux, if_neg hd]
      constructor
      · rw [hstep, ihr.1]
      · intro _
        rw [hstep, ihr.1]

theorem pyStrip_eq_self {s : List Char} (h : noEdgeWs s = true) : pyStrip s = s := by
  unfold noEdgeWs at h
  rw [Bool.and_eq_true] at h
  have hhd : s.dropWhile isPySpace = s := by
    rcases s with _ | ⟨d, r⟩
    · rfl
    · have h1 := h.1
      simp only [List.head?_cons] at h1
      rw [List.dropWhile_cons, if_neg (by simpa using h1)]
  have htl : dropTrailWs s = s := by
    unfold dropTrailWs
    rcases hrev : s.reverse with _ | ⟨d, r⟩
    · rw [List.dropWhile_nil, ← hrev, List.reverse_reverse]
    · have h2 := h.2
      rw [List.getLast?_eq_head?_reverse, hrev] at h2
      simp only [List.head?_cons] at h2
      rw [List.dropWhile_cons, if_neg (by simpa using h2), ← hrev,
        List.reverse_reverse]
  unfold pyStrip
  rw [hhd, htl]

theorem collapseNl_collapseWs (u : List Char) :
    collapseNl (collapseWs u) = collapseWs u := by
  unfold collapseNl collapseWs
  apply collapseNlAux_eq_self
  intro hmem
  exact absurd (mem_collapseWsAux hmem (by decide)) (by decide)

theorem mem_preprocess {t : List Char} {c : Char}
    (hc : c ∈ preprocess_text t) :
    isAllowed c = true ∧ (isPySpace c = true → c = ' ') := by
  unfold preprocess_text at hc
  rw [collapseNl_collapseWs] at hc
  have h1 := mem_pyStrip hc
  unfold removeFractions at h1
  have h2 := rfrFuel_subset h1
  unfold removePageMarkers at h2
  have h3 := rpmFuel_subset h2
  unfold removeDisallowed at h3
  rcases List.mem_filter.mp h3 with ⟨h4, h5⟩
  exact ⟨h5, fun hws => mem_collapseWsAux h4 hws⟩

theorem preprocess_noEdgeWs (t : List Char) :
    noEdgeWs (preprocess_text t) = true := by
  unfold noEdgeWs
  rw [Bool.and_eq_true]
  constructor
  · rcases hh : (preprocess_text t).head? with _ | c
    · rfl
    · have : isPySpace c = false := by
        apply pyStrip_head?
        rw [← hh]
        rfl
      simpa using this
  · rcases hh : (preprocess_text t).getLast? with _ | c
    · rfl
    · have : isPySpace c = false := by
        apply pyStrip_getLast?
        rw [← hh]
        rfl
      simpa using this

/-- C1 (corrected): for every input, the output of `preprocess_text` has no
leading or trailing whitespace and contains no newline character — indeed
every whitespace character remaining in it is a single plain space.  The
original claim's "no run of more than one consecutive space" part is false
(see the counterexample): removing symbols or page markers after whitespace
collapsing can join two spaces. -/
theorem preprocess_text_trim_no_newline (t : List Char) :
    noEdgeWs (preprocess_text t) = true ∧
    wsOnlySpace (preprocess_text t) = true ∧
    '\n' ∉ preprocess_text t := by
  refine ⟨preprocess_noEdgeWs t, ?_, ?_⟩
  · unfold wsOnlySpace
    rw [List.all_eq_true]
    intro c hc
    rcases mem_preprocess hc with ⟨_, hws⟩
    by_cases hsp : isPySpace c = true
    · simp [hws hsp]
    · simp [hsp]
  · intro hm
    rcases mem_preprocess hm with ⟨_, hws⟩
    exact absurd (hws (by decide)) (by decide)

/-- C1 counterexample: the normalizer's output can contain a run of two
consecutive spaces — on `"a # b"` the symbol `#` is removed after whitespace
collapsing, leaving `"a  b"`. -/
theorem preprocess_text_double_space_cex :
    hasDoubleSpace (preprocess_text (("a # b").toList)) = true := by decide

/-- C2 (corrected): `preprocess_text` is idempotent on every input whose
normalized output contains no two consecutive spaces and no residual
`Page <digits>` marker.  (Unrestricted idempotence is false: see the
counterexample.) -/
theorem preprocess_text_idempotent_of_stable (t : List Char)
    (h1 : hasDoubleSpace (preprocess_text t) = false)
    (h2 : hasPageMarker (preprocess_text t) = false) :
    preprocess_text (preprocess_text t) = preprocess_text t := by
  have hmem : ∀ c ∈ preprocess_text t,
      isAllowed c = true ∧ (isPySpace c = true → c = ' ') :=
    fun c hc => mem_preprocess hc
  have hnr : '\r' ∉ preprocess_text t := by
    intro hm
    exact absurd ((hmem _ hm).2 (by decide)) (by decide)
  have hnn : '\n' ∉ preprocess_text t := by
    intro hm
    exact absurd ((hmem _ hm).2 (by decide)) (by decide)
  have hsl : '/' ∉ preprocess_text t := by
    intro hm
    exact absurd ((hmem _ hm).1) (by decide)
  conv_lhs => rw [preprocess_text]
  rw [crlfToLf_eq_self hnr]
  unfold collapseWs
  rw [(collapseWsAux_eq_self (fun c hc => (hmem c hc).2) h1).1]
  unfold collapseNl
  rw [collapseNlAux_eq_self hnn]
  unfold removeDisallowed
  rw [List.filter_eq_self.mpr (fun c hc => (hmem c hc).1)]
  unfold removePageMarkers
  rw [rpmFuel_eq_self h2]
  unfold removeFractions
  rw [rfrFuel_eq_self hsl]
  exact pyStrip_eq_self (preprocess_noEdgeWs t)

/-- C2 witness: on `"a b"` the stability hypotheses hold and a second
normalization is the identity. -/
theorem preprocess_text_idempotent_witness :
    hasDoubleSpace (preprocess_text (("a b").toList)) = false ∧
    hasPageMarker (preprocess_text (("a b").toList)) = false ∧
    preprocess_text (preprocess_text (("a b").toList)) =
      preprocess_text (("a b").toList) :=
  ⟨by decide, by decide,
    preprocess_text_idempotent_of_stable (("a b").toList) (by decide) (by decide)⟩

/-- C2 counterexample: normalizing `"a # b"` yields `"a  b"`, and normalizing
again collapses the double space, so the normalizer is not idempotent. -/
theorem preprocess_text_not_idempotent_cex :
    preprocess_text (preprocess_text (("a # b").toList)) ≠
      preprocess_text (("a # b").toList) := by decide

/-- C3 (corrected): for the empty input string, `process_document` returns
failure, the reset state holds no FAQ pairs and no concepts, and
`get_statistics` on that state returns the single-key error record.  The
original claim also covered whitespace-only pasted text, but a blank string
passed directly to `process_document` is nonempty and the call succeeds (see
the counterexample); both callers strip user input first, so blank paste
reaches `process_document` only as the empty string. -/
theorem process_document_empty_input_fails (env : NlpEnv) (st : GenState) :
    (process_document env [] st).1 = false ∧
    (process_document env [] st).2.faq_pairs = [] ∧
    (process_document env [] st).2.key_concepts = [] ∧
    get_statistics env (process_document env [] st).2 = StatsResult.error :=
  ⟨rfl, rfl, rfl, rfl⟩

/-- C3 counterexample: whitespace-only input passed directly to
`process_document` succeeds, and the statistics record afterwards is a full
record rather than the error record. -/
theorem process_document_blank_input_succeeds_cex :
    (process_document testEnv ([' ']) initState).1 = true ∧
    get_statistics testEnv (process_document testEnv ([' ']) initState).2 ≠
      StatsResult.error :=
  ⟨by decide, by decide⟩

/-- C4 (confirmed): `process_document` rebuilds the whole session state from
its input alone — the Python method resets all four fields before reading
anything — so calls with the same input from any two states, in particular
two successive calls, return the same flag, FAQ pairs and statistics. -/
theorem process_document_repeat_deterministic (env : NlpEnv)
    (input : List Char) (st st' : GenState) :
    process_document env input st = process_document env input st' ∧
    (process_document env input
        (process_document env input st).2).2.faq_pairs =
      (process_document env input st).2.faq_pairs ∧
    get_statistics env (process_document env input
        (process_document env input st).2).2 =
      get_statistics env (process_document env input st).2 :=
  ⟨rfl, rfl, rfl⟩

theorem rdqAux_eq_dedupByFirst (l : List FaqPair) (seen : List (List Char)) :
    rdqAux l seen =
      dedupByFirst (l.filter (fun p => decide (dedupKey p ∉ seen))) := by
  induction l generalizing seen with
  | nil => simp [rdqAux, dedupByFirst]
  | cons p rest ih =>
    by_cases hp : dedupKey p ∈ seen
    · rw [rdqAux, if_pos hp, List.filter_cons_of_neg (by simpa using hp)]
      exact ih seen
    · rw [rdqAux, if_neg hp, List.filter_cons_of_pos (by simpa using hp),
        dedupByFirst]
      congr 1
      rw [ih (dedupKey p :: seen), List.filter_filter]
      congr 1
      apply List.filter_congr
      intro q _
      by_cases h1 : dedupKey q = dedupKey p
      · simp [h1]
      · by_cases h2 : dedupKey q ∈ seen <;> simp [h1, h2]

theorem remove_duplicate_eq_dedupByFirst (l : List FaqPair) :
    remove_duplicate_questions l = dedupByFirst l := by
  unfold remove_duplicate_questions
  rw [rdqAux_eq_dedupByFirst]
  congr 1
  exact List.filter_eq_self.mpr (fun a _ => by simp)

theorem dedupByFirst_sublist (l : List FaqPair) : (dedupByFirst l).Sublist l := by
  induction l using dedupByFirst.induct with
  | case1 => rw [dedupByFirst]
  | case2 p rest ih =>
    rw [dedupByFirst]
    exact (ih.trans (List.filter_sublist rest)).cons₂ p

theorem dedupByFirst_pairwise (l : List FaqPair) :
    (dedupByFirst l).Pairwise (fun a b => dedupKey a ≠ dedupKey b) := by
  induction l using dedupByFirst.induct with
  | case1 =>
    rw [dedupByFirst]
    exact List.Pairwise.nil
  | case2 p rest ih =>
    rw [dedupByFirst]
    refine List.Pairwise.cons ?_ ih
    intro b hb
    have hbf := (dedupByFirst_sublist _).subset hb
    have := (List.mem_filter.mp hbf).2
    simpa [ne_comm] using this

/-- C5 (confirmed): the deduplicator keeps no two pairs with equal
lowercased-trimmed question keys, keeps the surviving pairs unchanged and in
first-occurrence order (its output is a sublist of its input), and equals
the specification-side deduplicator that drops exactly the later pairs whose
key duplicates an earlier one. -/
theorem remove_duplicate_questions_spec (l : List FaqPair) :
    (remove_duplicate_questions l).Pairwise
      (fun a b => dedupKey a ≠ dedupKey b) ∧
    (remove_duplicate_questions l).Sublist l ∧
    remove_duplicate_questions l = dedupByFirst l := by
  rw [remove_duplicate_eq_dedupByFirst]
  exact ⟨dedupByFirst_pairwise l, dedupByFirst_sublist l, rfl⟩

theorem foldl_append_filter_map {α β : Type} (q : α → Bool) (g : α → β)
    (l : List α) (acc : List β) :
    l.foldl (fun a s => if q s then a ++ [g s] else a) acc =
      acc ++ (l.filter q).map g := by
  induction l generalizing acc with
  | nil => simp
  | cons s rest ih =>
    by_cases hq : q s = true
    · rw [List.foldl_cons, if_pos hq, ih, List.filter_cons_of_pos hq]
      simp
    · rw [List.foldl_cons, if_neg hq, ih, List.filter_cons_of_neg hq]

/-- C8 (confirmed): the why/reason generator pairs every sentence holding a
reason indicator with the fixed question and that sentence trimmed as the
answer, in document order, and returns at most the first 3 such pairs. -/
theorem generate_why_questions_spec (env : NlpEnv) (text : List Char) :
    generate_why_questions env text =
      (((env.sentTokenize text).filter qualifiesWhy).map
        (fun s => ⟨whyQuestion, pyStrip s⟩)).take 3 ∧
    (generate_why_questions env text).length ≤ 3 ∧
    ∀ p ∈ generate_why_questions env text, p.question = whyQuestion ∧
      ∃ sent ∈ env.sentTokenize text, qualifiesWhy sent = true ∧
        p.answer = pyStrip sent := by
  have h : generate_why_questions env text =
      (((env.sentTokenize text).filter qualifiesWhy).map
        (fun s => ⟨whyQuestion, pyStrip s⟩)).take 3 := by
    unfold generate_why_questions
    rw [foldl_append_filter_map]
    simp
  refine ⟨h, ?_, ?_⟩
  · rw [h]
    exact List.length_take_le _ _
  · intro p hp
    rw [h] at hp
    have hp2 := (List.take_sublist _ _).subset hp
    rcases List.mem_map.mp hp2 with ⟨sent, hsent, hps⟩
    rcases List.mem_filter.mp hsent with ⟨hmem, hqual⟩
    exact ⟨by rw [← hps], sent, hmem, hqual, by rw [← hps]⟩

theorem foldl_append_map {α β : Type} (g : α → β) (l : List α) (acc : List β) :
    l.foldl (fun a x => a ++ [g x]) acc = acc ++ l.map g := by
  induction l generalizing acc with
  | nil => simp
  | cons x rest ih =>
    rw [List.foldl_cons, ih]
    simp

theorem gcq_eq_map (env : NlpEnv) (text : List Char)
    (concepts : List (List Char)) :
    generate_comparison_questions env text concepts =
      (List.range (min (concepts.length - 1) 3)).map (fun i =>
        ⟨diffQ (concepts.getD i []) (concepts.getD (i + 1) []),
         cmpAnswer (comparisonPool env text) (concepts.getD i [])
           (concepts.getD (i + 1) [])⟩) := by
  unfold generate_comparison_questions
  rw [foldl_append_map]
  simp

/-- C7 (confirmed): the comparison generator emits exactly
`min (len(concepts) - 1, 3)` pairs (in particular none with fewer than 2
concepts and at least one with 2 or more), each considered adjacent pair
always yields its difference question, and when no pool sentence holds both
concepts the answer is the synthesized fallback, so the generator never
abstains once 2 concepts exist. -/
theorem generate_comparison_questions_spec (env : NlpEnv) (text : List Char)
    (concepts : List (List Char)) :
    (generate_comparison_questions env text concepts).length =
      min (concepts.length - 1) 3 ∧
    (concepts.length < 2 → generate_comparison_questions env text concepts = []) ∧
    (2 ≤ concepts.length →
      generate_comparison_questions env text concepts ≠ []) ∧
    ∀ i (h : i < (generate_comparison_questions env text concepts).length),
      (generate_comparison_questions env text concepts).get ⟨i, h⟩ =
        ⟨diffQ (concepts.getD i []) (concepts.getD (i + 1) []),
         cmpAnswer (comparisonPool env text) (concepts.getD i [])
           (concepts.getD (i + 1) [])⟩ ∧
      ((∀ s ∈ comparisonPool env text,
          bothIn (concepts.getD i []) (concepts.getD (i + 1) []) s = false) →
        ((generate_comparison_questions env text concepts).get ⟨i, h⟩).answer =
          cmpFallback (concepts.getD i []) (concepts.getD (i + 1) [])) := by
  have hlen : (generate_comparison_questions env text concepts).length =
      min (concepts.length - 1) 3 := by
    rw [gcq_eq_map]
    simp
  refine ⟨hlen, ?_, ?_, ?_⟩
  · intro hlt
    have h0 : min (concepts.length - 1) 3 = 0 := by omega
    rw [gcq_eq_map, h0]
    rfl
  · intro hge
    apply List.ne_nil_of_length_pos
    rw [hlen]
    omega
  · intro i h
    have hget : (generate_comparison_questions env text concepts).get ⟨i, h⟩ =
        ⟨diffQ (concepts.getD i []) (concepts.getD (i + 1) []),
         cmpAnswer (comparisonPool env text) (concepts.getD i [])
           (concepts.getD (i + 1) [])⟩ := by
      rw [List.get_eq_getElem]
      have hh : i < (List.range (min (concepts.length - 1) 3)).length := by
        rw [List.length_range]
        rw [hlen] at h
        exact h
      simp only [gcq_eq_map, List.getElem_map, List.getElem_range]
    refine ⟨hget, ?_⟩
    intro hall
    rw [hget]
    show cmpAnswer (comparisonPool env text) (concepts.getD i [])
        (concepts.getD (i + 1) []) = _
    unfold cmpAnswer
    rw [List.filter_eq_nil_iff.mpr
      (fun s hs => by rw [hall s hs]; simp)]

/-- C7 witness: with two concepts `aaa` and `bbb` the generator emits exactly
one pair, and its question is the difference question of the adjacent pair. -/
theorem generate_comparison_questions_spec_witness :
    generate_comparison_questions testEnv (("t").toList)
        [("aaa").toList, ("bbb").toList] ≠ [] ∧
    ∃ h : 0 < (generate_comparison_questions testEnv (("t").toList)
        [("aaa").toList, ("bbb").toList]).length,
      ((generate_comparison_questions testEnv (("t").toList)
          [("aaa").toList, ("bbb").toList]).get ⟨0, h⟩).question =
        diffQ (("aaa").toList) (("bbb").toList) := by
  have h := generate_comparison_questions_spec testEnv (("t").toList)
    [("aaa").toList, ("bbb").toList]
  refine ⟨h.2.2.1 (by decide), ⟨by rw [h.1]; decide, ?_⟩⟩
  rw [(h.2.2.2 0 _).1]
  rfl

theorem pairwise_key_countP_le_one {l : List FaqPair}
    (h : l.Pairwise (fun a b => dedupKey a ≠ dedupKey b)) (q : List Char) :
    l.countP (fun p => decide (p.question = q)) ≤ 1 := by
  induction l with
  | nil => simp
  | cons a t ih =>
    rw [List.countP_cons]
    rcases List.pairwise_cons.mp h with ⟨ha, ht⟩
    by_cases hq : a.question = q
    · have h0 : t.countP (fun p => decide (p.question = q)) = 0 := by
        rw [List.countP_eq_zero]
        intro b hb
        simp only [decide_eq_true_eq]
        intro hbq
        exact ha b hb (by unfold dedupKey; rw [hbq, hq])
      simp [h0, hq]
    · rw [if_neg (by simpa using hq)]
      simpa using ih ht

theorem process_document_faq_shape (env : NlpEnv) (input : List Char)
    (st : GenState) :
    (process_document env input st).2.faq_pairs = [] ∨
    ∃ l, (process_document env input st).2.faq_pairs =
      remove_duplicate_questions l := by
  unfold process_document
  dsimp only
  split
  · split
    · left; rfl
    · right; exact ⟨_, rfl⟩
  · split
    · split
      · left; rfl
      · right; exact ⟨_, rfl⟩
    · split
      · left; rfl
      · right; exact ⟨_, rfl⟩

/-- C10 (confirmed): after every successful `process_document` call the
deduplicated FAQ list holds at most one pair with the fixed why question —
the why generator always reuses that one question, and deduplication keeps
at most one pair per question key. -/
theorem process_document_single_why_pair (env : NlpEnv) (input : List Char)
    (st : GenState) (_h : (process_document env input st).1 = true) :
    ((process_document env input st).2.faq_pairs).countP
      (fun p => decide (p.question = whyQuestion)) ≤ 1 := by
  rcases process_document_faq_shape env input st with h | ⟨l, h⟩
  · rw [h]
    simp
  · rw [h]
    apply pairwise_key_countP_le_one
    rw [remove_duplicate_eq_dedupByFirst]
    exact dedupByFirst_pairwise _

/-- C10 witness: a concrete successful run whose FAQ list holds exactly the
why pairs the bound allows. -/
theorem process_document_single_why_pair_witness :
    (process_document testEnv (("aa because bb").toList) initState).1 = true ∧
    ((process_document testEnv
        (("aa because bb").toList) initState).2.faq_pairs).countP
      (fun p => decide (p.question = whyQuestion)) ≤ 1 :=
  ⟨by decide, process_document_single_why_pair testEnv
    (("aa because bb").toList) initState (by decide)⟩

theorem maxByLenAux_mem (best : List Char) (l : List (List Char)) :
    maxByLenAux best l = best ∨ maxByLenAux best l ∈ l := by
  induction l generalizing best with
  | nil => left; rfl
  | cons s rest ih =>
    rw [maxByLenAux]
    rcases ih (if best.length < s.length then s else best) with h | h
    · rw [h]
      by_cases hl : best.length < s.length
      · right; rw [if_pos hl]; exact List.mem_cons_self _ _
      · left; rw [if_neg hl]
    · right; exact List.mem_cons_of_mem _ h

theorem maxByLenAux_ge (best : List Char) (l : List (List Char)) :
    best.length ≤ (maxByLenAux best l).length ∧
      ∀ s ∈ l, s.length ≤ (maxByLenAux best l).length := by
  induction l generalizing best with
  | nil => exact ⟨Nat.le_refl _, fun s hs => absurd hs (List.not_mem_nil s)⟩
  | cons s rest ih =>
    rw [maxByLenAux]
    have h2 := ih (if best.length < s.length then s else best)
    constructor
    · refine Nat.le_trans ?_ h2.1
      by_cases hl : best.length < s.length
      · rw [if_pos hl]; omega
      · rw [if_neg hl]
    · intro x hx
      rcases List.mem_cons.mp hx with hx | hx
      · subst hx
        refine Nat.le_trans ?_ h2.1
        by_cases hl : best.length < x.length
        · rw [if_pos hl]
        · rw [if_neg hl]; omega
      · exact h2.2 x hx

theorem gdq_foldl_mem (env : NlpEnv) (text : List Char) :
    ∀ (concepts : List (List Char)) (acc : List FaqPair) (p : FaqPair),
      p ∈ concepts.foldl (fun acc concept =>
        match ((env.sentTokenize text).filter
            (qualifiesDef concept)).map pyStrip with
        | [] => acc
        | d :: ds => acc ++ [⟨whatIsQ concept, maxByLenAux d ds⟩]) acc →
      p ∈ acc ∨ ∃ c ∈ concepts, ∃ d ds,
        ((env.sentTokenize text).filter (qualifiesDef c)).map pyStrip =
          d :: ds ∧ p = ⟨whatIsQ c, maxByLenAux d ds⟩ := by
  intro concepts
  induction concepts with
  | nil =>
    intro acc p hp
    left
    exact hp
  | cons c rest ih =>
    intro acc p hp
    rw [List.foldl_cons] at hp
    rcases hcand : ((env.sentTokenize text).filter
        (qualifiesDef c)).map pyStrip with _ | ⟨d, ds⟩
    · rw [hcand] at hp
      rcases ih acc p hp with h | ⟨c', hc', d, ds, hcd, hpd⟩
      · left; exact h
      · right; exact ⟨c', List.mem_cons_of_mem _ hc', d, ds, hcd, hpd⟩
    · rw [hcand] at hp
      rcases ih (acc ++ [⟨whatIsQ c, maxByLenAux d ds⟩]) p hp
        with h | ⟨c', hc', d', ds', hcd, hpd⟩
      · rcases List.mem_append.mp h with h | h
        · left; exact h
        · right
          refine ⟨c, List.mem_cons_self _ _, d, ds, hcand, ?_⟩
          simpa using h
      · right; exact ⟨c', List.mem_cons_of_mem _ hc', d', ds', hcd, hpd⟩

theorem gdq_foldl_length (env : NlpEnv) (text : List Char) :
    ∀ (concepts : List (List Char)) (acc : List FaqPair),
      (concepts.foldl (fun acc concept =>
        match ((env.sentTokenize text).filter
            (qualifiesDef concept)).map pyStrip with
        | [] => acc
        | d :: ds => acc ++ [⟨whatIsQ concept, maxByLenAux d ds⟩]) acc).length =
      acc.length + (concepts.filter (fun c =>
        (env.sentTokenize text).any (qualifiesDef c))).length := by
  intro concepts
  induction concepts with
  | nil => intro acc; simp
  | cons c rest ih =>
    intro acc
    rw [List.foldl_cons]
    rcases hcand : ((env.sentTokenize text).filter
        (qualifiesDef c)).map pyStrip with _ | ⟨d, ds⟩
    · have hany : (env.sentTokenize text).any (qualifiesDef c) = false := by
        rw [List.any_eq_false]
        intro s hs
        have hfil := List.map_eq_nil_iff.mp hcand
        have := List.filter_eq_nil_iff.mp hfil s hs
        simpa using this
      have h3 : acc.length + (List.filter (fun c =>
          (env.sentTokenize text).any (qualifiesDef c)) rest).length =
          acc.length + (List.filter (fun c =>
            (env.sentTokenize text).any (qualifiesDef c)) (c :: rest)).length := by
        rw [List.filter_cons_of_neg (by simp [hany])]
      exact (ih acc).trans h3
    · have hne : (env.sentTokenize text).filter (qualifiesDef c) ≠ [] := by
        intro hn
        rw [hn] at hcand
        simp at hcand
      have hany : (env.sentTokenize text).any (qualifiesDef c) = true := by
        rcases List.exists_mem_of_ne_nil _ hne with ⟨s, hs⟩
        rcases List.mem_filter.mp hs with ⟨hs1, hs2⟩
        exact List.any_eq_true.mpr ⟨s, hs1, hs2⟩
      have h3 : (acc ++ [(⟨whatIsQ c, maxByLenAux d ds⟩ : FaqPair)]).length +
          (List.filter (fun c =>
            (env.sentTokenize text).any (qualifiesDef c)) rest).length =
          acc.length + (List.filter (fun c =>
            (env.sentTokenize text).any (qualifiesDef c)) (c :: rest)).length := by
        rw [List.filter_cons]
        simp only [hany, if_true, List.length_append, List.length_cons,
          List.length_nil]
        omega
      exact (ih _).trans h3

/-- C6 (confirmed): every emitted definition pair carries the question
`"What is {concept}?"` for one of the concepts and, as answer, a verbatim
trimmed qualifying sentence of the text (one containing the concept and an
indicator phrase, case-insensitively) of maximal character length among the
trimmed qualifying sentences; and exactly the concepts with at least one
qualifying sentence produce a pair, so nothing is fabricated. -/
theorem generate_definition_questions_sound (env : NlpEnv)
    (concepts : List (List Char)) (text : List Char) :
    (∀ p ∈ generate_definition_questions env concepts text,
      ∃ c ∈ concepts, p.question = whatIsQ c ∧
        (∃ sent ∈ env.sentTokenize text, qualifiesDef c sent = true ∧
          p.answer = pyStrip sent) ∧
        ∀ sent ∈ env.sentTokenize text, qualifiesDef c sent = true →
          (pyStrip sent).length ≤ p.answer.length) ∧
    (generate_definition_questions env concepts text).length =
      (concepts.filter (fun c =>
        (env.sentTokenize text).any (qualifiesDef c))).length := by
  constructor
  · intro p hp
    rcases gdq_foldl_mem env text concepts [] p hp with h | ⟨c, hc, d, ds, hcd, hpd⟩
    · simp at h
    · refine ⟨c, hc, by rw [hpd], ?_, ?_⟩
      · have hmem : maxByLenAux d ds ∈ d :: ds := by
          rcases maxByLenAux_mem d ds with h | h
          · rw [h]; exact List.mem_cons_self _ _
          · exact List.mem_cons_of_mem _ h
        rw [← hcd] at hmem
        rcases List.mem_map.mp hmem with ⟨sent, hsent, hstrip⟩
        rcases List.mem_filter.mp hsent with ⟨hs1, hs2⟩
        exact ⟨sent, hs1, hs2, by rw [hpd, ← hstrip]⟩
      · intro sent hsent hqual
        have hmem : pyStrip sent ∈ d :: ds := by
          rw [← hcd]
          exact List.mem_map.mpr ⟨sent, List.mem_filter.mpr ⟨hsent, hqual⟩, rfl⟩
        rw [hpd]
        rcases List.mem_cons.mp hmem with h | h
        · rw [h]; exact (maxByLenAux_ge d ds).1
        · exact (maxByLenAux_ge d ds).2 _ h
  · simpa [generate_definition_questions] using gdq_foldl_length env text concepts []

/-- C6 witness: with concept `cat` and text `a cat is here`, the single
emitted pair answers with the (only) qualifying sentence, which is maximal. -/
theorem generate_definition_questions_sound_witness :
    ∃ c ∈ [("cat").toList],
      (⟨whatIsQ (("cat").toList), ("a cat is here").toList⟩ : FaqPair).question
        = whatIsQ c ∧
      (∃ sent ∈ testEnv.sentTokenize (("a cat is here").toList),
        qualifiesDef c sent = true ∧
        (⟨whatIsQ (("cat").toList),
          ("a cat is here").toList⟩ : FaqPair).answer = pyStrip sent) ∧
      ∀ sent ∈ testEnv.sentTokenize (("a cat is here").toList),
        qualifiesDef c sent = true →
        (pyStrip sent).length ≤
          (⟨whatIsQ (("cat").toList),
            ("a cat is here").toList⟩ : FaqPair).answer.length :=
  (generate_definition_questions_sound testEnv [("cat").toList]
      (("a cat is here").toList)).1
    ⟨whatIsQ (("cat").toList), ("a cat is here").toList⟩ (by decide)

theorem bump_keys (w : List Char) (acc : List (List Char × Nat)) :
    (bump w acc).map Prod.fst =
      if w ∈ acc.map Prod.fst then acc.map Prod.fst
      else acc.map Prod.fst ++ [w] := by
  induction acc with
  | nil => simp [bump]
  | cons kv rest ih =>
    rcases kv with ⟨k, n⟩
    rw [bump]
    by_cases hk : k = w
    · rw [if_pos hk]
      have : w ∈ ((k, n) :: rest).map Prod.fst := by
        simp [hk.symm]
      rw [if_pos this]
      simp
    · rw [if_neg hk]
      by_cases hw : w ∈ rest.map Prod.fst
      · have h1 : w ∈ ((k, n) :: rest).map Prod.fst := by
          simp [hw]
        rw [if_pos h1]
        simp only [List.map_cons]
        rw [ih, if_pos hw]
      · have h1 : ¬ w ∈ ((k, n) :: rest).map Prod.fst := by
          simp only [List.map_cons, List.mem_cons]
          rintro (h | h)
          · exact hk (by simpa using h.symm)
          · exact hw h
        rw [if_neg h1]
        simp only [List.map_cons]
        rw [ih, if_neg hw]
        simp

theorem countOcc_keys_aux (ws : List (List Char)) :
    ∀ acc : List (List Char × Nat),
      (ws.foldl (fun a w => bump w a) acc).map Prod.fst =
        ws.foldl (fun a w => if w ∈ a then a else a ++ [w])
          (acc.map Prod.fst) := by
  induction ws with
  | nil => intro acc; rfl
  | cons w rest ih =>
    intro acc
    rw [List.foldl_cons, List.foldl_cons, ih (bump w acc), bump_keys]

theorem countOcc_keys (ws : List (List Char)) :
    (countOcc ws).map Prod.fst = firstOccList ws := by
  unfold countOcc firstOccList
  rw [countOcc_keys_aux ws []]
  rfl

theorem firstOcc_foldl_mem {ws : List (List Char)} :
    ∀ {acc : List (List Char)} {x : List Char},
      x ∈ ws.foldl (fun a w => if w ∈ a then a else a ++ [w]) acc →
      x ∈ acc ∨ x ∈ ws := by
  induction ws with
  | nil =>
    intro acc x hx
    left
    exact hx
  | cons w rest ih =>
    intro acc x hx
    rw [List.foldl_cons] at hx
    by_cases hw : w ∈ acc
    · rw [if_pos hw] at hx
      rcases ih hx with h | h
      · left; exact h
      · right; exact List.mem_cons_of_mem _ h
    · rw [if_neg hw] at hx
      rcases ih hx with h | h
      · rcases List.mem_append.mp h with h | h
        · left; exact h
        · right
          simp only [List.mem_singleton] at h
          exact h ▸ List.mem_cons_self _ _
      · right; exact List.mem_cons_of_mem _ h

theorem firstOccList_subset {ws : List (List Char)} {x : List Char}
    (hx : x ∈ firstOccList ws) : x ∈ ws := by
  rcases firstOcc_foldl_mem hx with h | h
  · simp at h
  · exact h

theorem firstOcc_foldl_nodup {ws : List (List Char)} :
    ∀ {acc : List (List Char)}, acc.Nodup →
      (ws.foldl (fun a w => if w ∈ a then a else a ++ [w]) acc).Nodup := by
  induction ws with
  | nil =>
    intro acc h
    exact h
  | cons w rest ih =>
    intro acc h
    rw [List.foldl_cons]
    by_cases hw : w ∈ acc
    · rw [if_pos hw]
      exact ih h
    · rw [if_neg hw]
      refine ih ?_
      rw [List.nodup_append]
      exact ⟨h, List.nodup_singleton w, fun x hx hx1 => by
        simp only [List.mem_singleton] at hx1
        exact hw (hx1 ▸ hx)⟩

theorem countOcc_keysNodup (ws : List (List Char)) :
    (countOcc ws).Pairwise (fun a b => a.1 ≠ b.1) := by
  have h : ((countOcc ws).map Prod.fst).Nodup := by
    rw [countOcc_keys]
    exact firstOcc_foldl_nodup List.nodup_nil
  rw [List.Nodup, List.pairwise_map] at h
  exact h

theorem cntLookup_bump (w w' : List Char) (acc : List (List Char × Nat)) :
    cntLookup (bump w acc) w' =
      cntLookup acc w' + if w' = w then 1 else 0 := by
  induction acc with
  | nil =>
    rw [bump]
    by_cases hw : w' = w
    · simp [cntLookup, List.find?_cons, hw]
    · simp [cntLookup, List.find?_cons, hw, Ne.symm hw]
  | cons kv rest ih =>
    rcases kv with ⟨k, n⟩
    rw [bump]
    by_cases hk : k = w
    · rw [if_pos hk]
      by_cases hw : w' = k
      · simp [cntLookup, List.find?_cons, hw, hk]
      · have hww : ¬ w' = w := fun hc => hw (hc.trans hk.symm)
        simp [cntLookup, List.find?_cons, Ne.symm hw, hww]
    · rw [if_neg hk]
      by_cases hw : w' = k
      · have hww : ¬ w' = w := fun hc => hk (hc ▸ hw).symm
        simp [cntLookup, List.find?_cons, hw.symm, hww]
      · have h1 : cntLookup ((k, n) :: bump w rest) w' = cntLookup (bump w rest) w' := by
          simp [cntLookup, List.find?_cons, Ne.symm hw]
        have h2 : cntLookup ((k, n) :: rest) w' = cntLookup rest w' := by
          simp [cntLookup, List.find?_cons, Ne.symm hw]
        rw [h1, h2, ih]

theorem cntLookup_foldl (ws : List (List Char)) :
    ∀ (acc : List (List Char × Nat)) (w : List Char),
      cntLookup (ws.foldl (fun a x => bump x a) acc) w =
        cntLookup acc w + ws.count w := by
  induction ws with
  | nil => intro acc w; simp
  | cons x rest ih =>
    intro acc w
    rw [List.foldl_cons, ih (bump x acc) w, cntLookup_bump]
    rw [List.count_cons]
    by_cases hw : w = x
    · simp [hw]
      omega
    · have : ¬ (x == w) = true := by simpa using fun hc => hw (by simpa using hc.symm)
      simp [hw, this]

theorem cntLookup_countOcc (ws : List (List Char)) (w : List Char) :
    cntLookup (countOcc ws) w = ws.count w := by
  unfold countOcc
  rw [cntLookup_foldl]
  simp [cntLookup]

theorem cntLookup_of_mem :
    ∀ {l : List (List Char × Nat)} {w : List Char} {n : Nat},
      l.Pairwise (fun a b => a.1 ≠ b.1) → (w, n) ∈ l → cntLookup l w = n := by
  intro l
  induction l with
  | nil =>
    intro w n _ hm
    simp at hm
  | cons kv rest ih =>
    intro w n hp hm
    rcases kv with ⟨k, m⟩
    rcases List.pairwise_cons.mp hp with ⟨hk, hrest⟩
    rcases List.mem_cons.mp hm with h | h
    · rcases Prod.mk.injEq .. ▸ h with ⟨h1, h2⟩
      simp [cntLookup, List.find?_cons, h1.symm, h2]
    · have hkw : ¬ k = w := by
        intro hc
        exact hk (w, n) h (by simpa using hc)
      have : cntLookup ((k, m) :: rest) w = cntLookup rest w := by
        simp [cntLookup, List.find?_cons, hkw]
      rw [this]
      exact ih hrest h

theorem countOcc_count {ws : List (List Char)} {w : List Char} {n : Nat}
    (h : (w, n) ∈ countOcc ws) : n = ws.count w := by
  rw [← cntLookup_countOcc ws w]
  exact (cntLookup_of_mem (countOcc_keysNodup ws) h).symm

theorem sublist_orderedInsert {s u : List (List Char × Nat)}
    (x : List Char × Nat) (h : s.Sublist u) :
    s.Sublist (List.orderedInsert countGE x u) := by
  rw [List.orderedInsert_eq_take_drop]
  refine h.trans ?_
  nth_rewrite 1 [← List.takeWhile_append_dropWhile
    (fun b => decide ¬ countGE x b) u]
  exact (List.append_sublist_append_left _).mpr ((List.Sublist.refl _).cons x)

theorem insertionSort_stable_pair :
    ∀ {l : List (List Char × Nat)} {a b : List Char × Nat},
      countGE a b → [a, b].Sublist l →
      [a, b].Sublist (List.insertionSort countGE l) := by
  intro l
  induction l with
  | nil =>
    intro a b _ h
    exact absurd (h.subset (List.mem_cons_self a [b])) (List.not_mem_nil a)
  | cons x t ih =>
    intro a b hr h
    rw [List.insertionSort]
    cases h with
    | cons _ h2 =>
      exact sublist_orderedInsert x (ih hr h2)
    | cons₂ _ h2 =>
      rw [List.orderedInsert_eq_take_drop]
      have hbmem : b ∈ List.insertionSort countGE t :=
        (List.perm_insertionSort countGE t).mem_iff.mpr
          (List.singleton_sublist.mp h2)
      have hsplit : (List.insertionSort countGE t).takeWhile
            (fun y => decide ¬ countGE x y) ++
          (List.insertionSort countGE t).dropWhile
            (fun y => decide ¬ countGE x y) =
          List.insertionSort countGE t :=
        List.takeWhile_append_dropWhile _ _
      have hbdw : b ∈ (List.insertionSort countGE t).dropWhile
          (fun y => decide ¬ countGE x y) := by
        have hb2 : b ∈ (List.insertionSort countGE t).takeWhile
              (fun y => decide ¬ countGE x y) ++
            (List.insertionSort countGE t).dropWhile
              (fun y => decide ¬ countGE x y) := by
          rw [hsplit]
          exact hbmem
        rcases List.mem_append.mp hb2 with h1 | h1
        · exfalso
          have h3 := List.mem_takeWhile_imp h1
          simp only [decide_eq_true_eq] at h3
          exact h3 hr
        · exact h1
      have h4 : [x, b].Sublist (x :: (List.insertionSort countGE t).dropWhile
          (fun y => decide ¬ countGE x y)) :=
        (List.singleton_sublist.mpr hbdw).cons₂ x
      exact h4.trans (List.sublist_append_right _ _)

theorem most_common_sorted (l : List (List Char × Nat)) (n : Nat) :
    (most_common l n).Pairwise (fun a b => b.2 ≤ a.2) := by
  unfold most_common
  refine List.Pairwise.sublist (List.take_sublist n _) ?_
  exact List.sorted_insertionSort countGE l

theorem mem_most_common {l : List (List Char × Nat)} {n : Nat}
    {p : List Char × Nat} (hp : p ∈ most_common l n) : p ∈ l := by
  unfold most_common at hp
  exact (List.perm_insertionSort countGE l).mem_iff.mp
    ((List.take_sublist n _).subset hp)

/-- C9 (confirmed): under the environment facts that the tagger returns its
input words and that tokens of lowercased text are lowercase (true of the
NLTK collaborators), every returned concept is a lowercase, purely
alphabetic token of the lowercased text, longer than 2 characters, not a
stop word, and tagged with an NN/JJ/VB-prefixed tag; the list holds at most
`top_n` concepts, the selected counter entries carry the true frequencies
sorted in descending order, the stable sort keeps tied entries in counter
(first-encounter) order, the counter's keys are in first-occurrence order,
and the concepts are exactly the keys of the selected entries. -/
theorem extract_key_concepts_sound (env : NlpEnv) (text : List Char)
    (top_n : Nat)
    (hpos : (env.posTag (env.wordTokenize (pyLowerL text))).map Prod.fst =
      env.wordTokenize (pyLowerL text))
    (hlow : ∀ w ∈ env.wordTokenize (pyLowerL text), pyLowerL w = w) :
    (∀ w ∈ extract_key_concepts env text top_n,
      w ∈ env.wordTokenize (pyLowerL text) ∧ pyLowerL w = w ∧
      pyIsAlpha w = true ∧ 2 < w.length ∧
      env.stopWords.contains w = false ∧
      ∃ pos, (w, pos) ∈ env.posTag (env.wordTokenize (pyLowerL text)) ∧
        nnjjvb pos = true) ∧
    (extract_key_concepts env text top_n).length ≤ top_n ∧
    (∀ p ∈ most_common (countOcc (importantWords env text)) top_n,
      p.2 = (importantWords env text).count p.1) ∧
    (most_common (countOcc (importantWords env text)) top_n).Pairwise
      (fun a b => b.2 ≤ a.2) ∧
    (∀ a b : List Char × Nat, a.2 = b.2 →
      [a, b].Sublist (countOcc (importantWords env text)) →
      [a, b].Sublist (List.insertionSort countGE
        (countOcc (importantWords env text)))) ∧
    (countOcc (importantWords env text)).map Prod.fst =
      firstOccList (importantWords env text) ∧
    extract_key_concepts env text top_n =
      (most_common (countOcc (importantWords env text)) top_n).map
        Prod.fst := by
  refine ⟨?_, ?_, ?_, most_common_sorted _ _, ?_, countOcc_keys _, rfl⟩
  · intro w hw
    unfold extract_key_concepts at hw
    rcases List.mem_map.mp hw with ⟨p, hp, hfst⟩
    have hpc : p ∈ countOcc (importantWords env text) := mem_most_common hp
    have hkey : w ∈ (countOcc (importantWords env text)).map Prod.fst :=
      List.mem_map.mpr ⟨p, hpc, hfst⟩
    rw [countOcc_keys] at hkey
    have himp : w ∈ importantWords env text := firstOccList_subset hkey
    unfold importantWords at himp
    rcases List.mem_map.mp himp with ⟨wp, hwp, hfst2⟩
    rcases List.mem_filter.mp hwp with ⟨hwp1, hkeep⟩
    unfold conceptKeep at hkeep
    simp only [Bool.and_eq_true, Bool.not_eq_true', decide_eq_true_eq] at hkeep
    have hwtok : w ∈ env.wordTokenize (pyLowerL text) := by
      rw [← hpos]
      exact List.mem_map.mpr ⟨wp, hwp1, hfst2⟩
    refine ⟨hwtok, hlow w hwtok, ?_, ?_, ?_, wp.2, ?_, hkeep.1.1.1⟩
    · rw [← hfst2]; exact hkeep.2
    · rw [← hfst2]; exact hkeep.1.2
    · rw [← hfst2]; exact hkeep.1.1.2
    · rw [← hfst2]
      exact hwp1
  · unfold extract_key_concepts most_common
    rw [List.length_map]
    exact List.length_take_le _ _
  · intro p hp
    exact countOcc_count (mem_most_common hp)
  · intro a b heq hsub
    exact insertionSort_stable_pair (le_of_eq heq.symm) hsub

/-- C9 witness: with text `dog runs fast` under the test environment, the
hypotheses hold, the concept `dog` satisfies all filter conditions and the
returned list respects the `top_n = 2` cap. -/
theorem extract_key_concepts_sound_witness :
    ((("dog").toList ∈ testEnv.wordTokenize
        (pyLowerL (("dog runs fast").toList)) ∧
      pyLowerL (("dog").toList) = ("dog").toList ∧
      pyIsAlpha (("dog").toList) = true ∧ 2 < (("dog").toList).length ∧
      testEnv.stopWords.contains (("dog").toList) = false ∧
      ∃ pos, ((("dog").toList), pos) ∈ testEnv.posTag
          (testEnv.wordTokenize (pyLowerL (("dog runs fast").toList))) ∧
        nnjjvb pos = true) ∧
    (extract_key_concepts testEnv (("dog runs fast").toList) 2).length ≤ 2) := by
  have h := extract_key_concepts_sound testEnv (("dog runs fast").toList) 2
    (by decide) (by decide)
  exact ⟨h.1 (("dog").toList) (by decide), h.2.1⟩
